import Mathlib

/-!
Verification of the source-resolution and installation pipeline of the
`personal-ai-skills` CLI.  The definitions below are a shallow embedding of
the TypeScript source (sources module: `parseSource`, `parseGitHubUrl`,
`fetchFromGitHub`, `fetchFromUrl`, `fetchFromLocal`, `fetchSkill`, and the
bridge-file writer).  Strings are modelled by `String`, with the JavaScript
string operations (`includes`, `startsWith`, `split`, `String.prototype.replace`
with a string pattern) implemented explicitly over the underlying character
lists.  Network and filesystem effects are modelled by explicit function
parameters (`fetch`, `readFile`, `resolve`); exceptions are modelled by
`Except String`.
-/

set_option maxRecDepth 4096

/-! ## Character-list string primitives (JavaScript semantics) -/

/-- JavaScript `String.prototype.startsWith`: `pre` is a prefix of `s`. -/
def strStartsWith (s pre : String) : Bool :=
  pre.data.isPrefixOf s.data

/-- Substring occurrence test on character lists: `pat` occurs somewhere in `s`
(JavaScript `String.prototype.includes`). -/
def containsSub : List Char → List Char → Bool
  | [], pat => pat.isEmpty
  | s@(_ :: t), pat => pat.isPrefixOf s || containsSub t pat

/-- JavaScript `String.prototype.includes`. -/
def containsSubstr (s pat : String) : Bool :=
  containsSub s.data pat.data

/-- JavaScript `String.prototype.split(sep)` for a one-character separator,
on character lists.  Always returns a nonempty list of chunks. -/
def splitOnChar (sep : Char) : List Char → List (List Char)
  | [] => [[]]
  | c :: cs =>
    if c = sep then [] :: splitOnChar sep cs
    else
      match splitOnChar sep cs with
      | [] => [[c]]
      | h :: t => (c :: h) :: t

/-- JavaScript `Array.prototype.join("/")` on character-list chunks. -/
def joinSlash : List (List Char) → List Char
  | [] => []
  | [a] => a
  | a :: rest => a ++ '/' :: joinSlash rest

/-- Leftmost-occurrence string replacement: JavaScript
`String.prototype.replace(pat, rep)` with a plain-string pattern replaces only
the first occurrence (and returns the string unchanged when there is none). -/
def replaceFirst (s pat rep : List Char) : List Char :=
  match s with
  | [] => if pat.isPrefixOf ([] : List Char) then rep else []
  | c :: t =>
    if pat.isPrefixOf (c :: t) then rep ++ (c :: t).drop pat.length
    else c :: replaceFirst t pat rep

/-- JavaScript `String.prototype.endsWith`. -/
def strEndsWith (s suf : String) : Bool :=
  suf.data.isSuffixOf s.data

/-- Node `path.basename` (POSIX): trailing separators are dropped, then the
portion after the last separator is returned; a path consisting only of
separators yields `"/"`, the empty path yields `""`. -/
def posixBasename (s : String) : String :=
  let trimmed := (s.data.reverse.dropWhile (· = '/')).reverse
  if trimmed.isEmpty then
    if s.data.isEmpty then "" else "/"
  else
    ⟨(trimmed.reverse.takeWhile (· ≠ '/')).reverse⟩

/-! ## Data model (`types.ts`) -/

/-- Model of `GitHubSource` — `{type:"github", owner, repo, branch?, path?}`. -/
structure GitHubSource where
  owner : String
  repo : String
  branch : Option String := none
  path : Option String := none
  deriving DecidableEq, Repr

/-- Model of `ContentSource` — tagged union of GitHub / generic-URL / local sources. -/
inductive ContentSource where
  | github (g : GitHubSource)
  | url (url : String)
  | «local» (path : String)
  deriving DecidableEq, Repr

/-- Model of `FetchedSkill` — the result record of `fetchSkill`. -/
structure FetchedSkill where
  id : String
  name : String
  description : String
  content : String
  source : ContentSource
  deriving DecidableEq, Repr

/-! ## URL constructor model

The WHATWG `new URL(u)` platform call is modelled just far enough for the
source strings this program handles: a URL must begin with a scheme
(an ASCII letter followed by letters, digits, `+`, `-` or `.`, then `:`);
a missing or malformed scheme raises a construction error, exactly as the
real constructor throws `TypeError: Invalid URL`.  For `scheme://` URLs the
pathname is the part after the authority up to `?` or `#` (or `"/"` when
absent); percent-encoding and `.`/`..` segment normalisation are not
modelled, so statements quantify only over URLs without such segments. -/

/-- Split a character list at the first `':'`, returning the part before and
after it. -/
def splitAtColon : List Char → Option (List Char × List Char)
  | [] => none
  | c :: cs =>
    if c = ':' then some ([], cs)
    else
      match splitAtColon cs with
      | some (a, b) => some (c :: a, b)
      | none => none

/-- A valid URL scheme: nonempty, starts with an ASCII letter, continues with
letters, digits, `+`, `-`, `.`. -/
def validScheme (s : List Char) : Bool :=
  match s with
  | [] => false
  | c :: cs => c.isAlpha && cs.all (fun d => d.isAlphanum || d = '+' || d = '-' || d = '.')

/-- Characters that terminate a pathname. -/
def pathStop (c : Char) : Bool :=
  c == '?' || c == '#'

/-- Pathname of `new URL(url)` (see the model note above). -/
def urlPathnameE (url : String) : Except String String :=
  match splitAtColon url.data with
  | none => .error ("Invalid URL: " ++ url)
  | some (scheme, rest) =>
    if validScheme scheme then
      if ['/', '/'].isPrefixOf rest then
        match (rest.drop 2).dropWhile (fun c => !(c == '/' || pathStop c)) with
        | '/' :: tail => .ok ⟨('/' :: tail).takeWhile (fun c => !(pathStop c))⟩
        | _ => .ok "/"
      else
        .ok ⟨rest.takeWhile (fun c => !(pathStop c))⟩
    else .error ("Invalid URL: " ++ url)

/-! ## Source Resolver: `parseSource` / `parseGitHubUrl` -/

/-- A character of the JavaScript regex class `[\w-]`. -/
def wordHyphen (c : Char) : Bool :=
  c.isAlphanum || c = '_' || c = '-'

/-- The regex test `/^[\w-]+\/[\w-]+$/.test(s)`: exactly one `/`, separating
two nonempty runs of word characters and hyphens. -/
def shorthandTest (s : String) : Bool :=
  match splitOnChar '/' s.data with
  | [a, b] => !a.isEmpty && !b.isEmpty && a.all wordHyphen && b.all wordHyphen
  | _ => false

/-- The regex test `/^[\w-]+\/[\w-]+\//.test(s)`: the string begins with two
nonempty word-character-and-hyphen runs each followed by `/`. -/
def shorthandPathTest (s : String) : Bool :=
  match splitOnChar '/' s.data with
  | a :: b :: _ :: _ => !a.isEmpty && !b.isEmpty && a.all wordHyphen && b.all wordHyphen
  | _ => false

/-- Strip one trailing `/SKILL.md` (the regex replace `/\/SKILL\.md$/ → ""`). -/
def stripSkillMd (s : String) : String :=
  if strEndsWith s "/SKILL.md" then ⟨s.data.take (s.data.length - 9)⟩ else s

/-- Model of `parseGitHubUrl(url)`: split the URL pathname on `/`, drop empty segments,
take `owner`/`repo` from the first two, and read `branch` and `path` from a
`/tree/...` or `/blob/...` tail. -/
def parseGitHubUrl (url : String) : Except String GitHubSource := do
  let pathname ← urlPathnameE url
  let pathParts := (splitOnChar '/' pathname.data).filter (· ≠ [])
  if pathParts.length < 2 then
    .error ("Invalid GitHub URL: " ++ url)
  else
    let owner : String := ⟨pathParts.headD []⟩
    let repo : String := ⟨(pathParts.drop 1).headD []⟩
    let branch : Option String :=
      if pathParts.getD 2 [] = "tree".data || pathParts.getD 2 [] = "blob".data then
        (pathParts.drop 3).head?.map (⟨·⟩)
      else none
    let skillPath : Option String :=
      if (pathParts.getD 2 [] = "tree".data || pathParts.getD 2 [] = "blob".data)
          && pathParts.length > 4 then
        some (stripSkillMd ⟨joinSlash (pathParts.drop 4)⟩)
      else none
    .ok { owner, repo, branch, path := skillPath }

/-- Model of `parseSource(source)`: prefix-based, first-match-wins resolution of a
source string into a `ContentSource`. -/
def parseSource (source : String) : Except String ContentSource :=
  if strStartsWith source "/" || strStartsWith source "./" || strStartsWith source "../" then
    .ok (.«local» source)
  else if containsSubstr source "github.com" then
    (parseGitHubUrl source).map .github
  else if shorthandTest source then
    let parts := splitOnChar '/' source.data
    .ok (.github { owner := ⟨parts.headD []⟩, repo := ⟨(parts.drop 1).headD []⟩ })
  else if shorthandPathTest source then
    let parts := splitOnChar '/' source.data
    .ok (.github { owner := ⟨parts.headD []⟩, repo := ⟨(parts.drop 1).headD []⟩,
                   path := some ⟨joinSlash (parts.drop 2)⟩ })
  else if strStartsWith source "http://" || strStartsWith source "https://" then
    .ok (.url source)
  else
    .error ("Unable to parse source: " ++ source)

/-! ## Fetching

`fetch` is modelled as a pure function from a URL to an HTTP response; the
filesystem read is a function from a path to `Except` (the error is the
thrown message), and Node `path.resolve` (which depends on the working
directory) is an abstract function parameter. -/

/-- The part of a `fetch` response the code consults: `ok`, `status`,
and the body `text()`. -/
structure FetchResponse where
  ok : Bool
  status : Nat
  text : String
  deriving DecidableEq, Repr

/-- Effective branch of a GitHub source: `source.branch || "main"` (JavaScript
`||`, so an empty-string branch also falls back to the default). -/
def effectiveBranch (source : GitHubSource) : String :=
  match source.branch with
  | none => "main"
  | some b => if b = "" then "main" else b

/-- File path within the repository:
`source.path ? path + "/SKILL.md" : "SKILL.md"` — JavaScript truthiness, so an
empty-string path (reachable via `parseSource "owner/repo/"`) is falsy and
yields plain `SKILL.md`, exactly like an absent path. -/
def githubFilePath (source : GitHubSource) : String :=
  match source.path with
  | some p => if p = "" then "SKILL.md" else p ++ "/SKILL.md"
  | none => "SKILL.md"

/-- The primary raw-content URL built by `fetchFromGitHub`. -/
def githubRawUrl (source : GitHubSource) : String :=
  "https://raw.githubusercontent.com/" ++ source.owner ++ "/" ++ source.repo ++ "/"
    ++ effectiveBranch source ++ "/" ++ githubFilePath source

/-- The fallback URL: `rawUrl.replace("/main/", "/master/")` — the first
occurrence of `/main/` replaced by `/master/`. -/
def masterFallbackUrl (source : GitHubSource) : String :=
  ⟨replaceFirst (githubRawUrl source).data "/main/".data "/master/".data⟩

/-- Model of `fetchFromGitHub(source)`: fetch the raw-content URL; when the response is
not ok and the branch is `"main"`, retry once on the `master` fallback URL;
otherwise throw `Failed to fetch from GitHub: <status>`. -/
def fetchFromGitHub (fetch : String → FetchResponse) (source : GitHubSource) :
    Except String String :=
  let branch := effectiveBranch source
  let rawUrl := githubRawUrl source
  let response := fetch rawUrl
  if response.ok then .ok response.text
  else
    if branch = "main" then
      let masterResponse := fetch (masterFallbackUrl source)
      if masterResponse.ok then .ok masterResponse.text
      else .error ("Failed to fetch from GitHub: " ++ toString response.status)
    else .error ("Failed to fetch from GitHub: " ++ toString response.status)

/-- Model of `fetchFromUrl(source)`: a single fetch, no fallback. -/
def fetchFromUrl (fetch : String → FetchResponse) (url : String) : Except String String :=
  let response := fetch url
  if response.ok then .ok response.text
  else .error ("Failed to fetch from URL: " ++ toString response.status)

/-- Model of `fetchFromLocal(source)`: try `<resolved>/SKILL.md`, and on failure fall
back to reading `<resolved>` itself as a direct file (the second failure, if
any, propagates). -/
def fetchFromLocal (readFile : String → Except String String)
    (resolve : String → String) (path : String) : Except String String :=
  let resolvedPath := resolve path
  let skillPath := resolvedPath ++ "/SKILL.md"
  match readFile skillPath with
  | .ok content => .ok content
  | .error _ => readFile resolvedPath

/-- Identifier derivation in `fetchSkill`:
`github` — `source.path?.split("/").pop() || source.repo`;
`local` — `path.basename(source.path)`;
`url` — `new URL(source.url).pathname.split("/").filter(Boolean).pop() || "skill"`
(the URL constructor can throw). -/
def deriveId : ContentSource → Except String String
  | .github g =>
    .ok (match g.path with
      | some p =>
        let seg : String := ⟨(splitOnChar '/' p.data).getLastD []⟩
        if seg = "" then g.repo else seg
      | none => g.repo)
  | .«local» p => .ok (posixBasename p)
  | .url u => do
    let pn ← urlPathnameE u
    match ((splitOnChar '/' pn.data).filter (· ≠ [])).getLast? with
    | some seg => .ok ⟨seg⟩
    | none => .ok "skill"

/-- JavaScript `x || dflt` on an optional string field (absent and empty are
both falsy). -/
def fallbackStr (x : Option String) (dflt : String) : String :=
  match x with
  | some s => if s = "" then dflt else s
  | none => dflt

/-- Model of `fetchSkill(source)`: dispatch the fetch on the source kind, parse the
frontmatter of the content (the frontmatter parser lives in another module and
is passed as a function returning the key/value mapping), derive the
identifier, and assemble the `FetchedSkill`. -/
def fetchSkill (fetch : String → FetchResponse) (readFile : String → Except String String)
    (resolve : String → String) (parseFrontmatter : String → List (String × String))
    (source : ContentSource) : Except String FetchedSkill := do
  let content ← match source with
    | .github g => fetchFromGitHub fetch g
    | .url u => fetchFromUrl fetch u
    | .«local» p => fetchFromLocal readFile resolve p
  let frontmatter := parseFrontmatter content
  let id ← deriveId source
  .ok { id
        name := fallbackStr (frontmatter.lookup "name") id
        description := fallbackStr (frontmatter.lookup "description") ""
        content
        source }

/-! ## Bridge Generator

The bridge module (`generateBridgeFiles` / `writeBridgeFiles`) is not present
in the available source tree; only its callers are.  `writeBridgeFiles` is
therefore modelled from the spec.  The filesystem is a map from absolute path
to file content. -/

/-- One candidate bridge file, as produced by `generateBridgeFiles`. -/
structure BridgeFile where
  filePath : String
  content : String
  description : String
  deriving DecidableEq, Repr

/-- Filesystem state: path to content, `none` when absent. -/
abbrev FileSys := String → Option String

/-- Destination of a bridge file under an installation root. -/
def bridgeDest (root : String) (f : BridgeFile) : String :=
  root ++ "/" ++ f.filePath

/-- Modelled from the spec: `writeBridgeFiles(files, root, overwrite=false) ->
{written, skipped}` (the defining module `bridge.ts` is missing from the
source tree) — for each candidate file, if it already exists and `overwrite`
is false, skip it and report it as skipped; otherwise write it and report it
as written.  Returns the final filesystem plus the written and skipped
file lists. -/
def writeBridgeFiles (fs : FileSys) (files : List BridgeFile) (root : String)
    (overwrite : Bool) : FileSys × List String × List String :=
  match files with
  | [] => (fs, [], [])
  | f :: rest =>
    let dest := bridgeDest root f
    if (fs dest).isSome && !overwrite then
      let r := writeBridgeFiles fs rest root overwrite
      (r.1, r.2.1, f.filePath :: r.2.2)
    else
      let r := writeBridgeFiles (fun q => if q = dest then some f.content else fs q)
        rest root overwrite
      (r.1, f.filePath :: r.2.1, r.2.2)

/-- Model of `autoGenerateBridgeFiles`: the post-install hook calls
`writeBridgeFiles(files)` with the default root (the working directory) and
the default `overwrite = false`. -/
def autoGenerateBridgeFiles (cwd : String) (fs : FileSys) (files : List BridgeFile) :
    FileSys × List String × List String :=
  writeBridgeFiles fs files cwd false

/-- A fetch world in which only the master-branch raw URL of `acme/kit`
resolves. -/
def c1Fetch : String → FetchResponse := fun u =>
  if u = "https://raw.githubusercontent.com/acme/kit/master/SKILL.md" then
    { ok := true, status := 200, text := "master text" }
  else { ok := false, status := 404, text := "" }

/-- A fetch world where the `acme/tools` main-branch URL 404s and the
master-branch URL succeeds. -/
def c2Fetch : String → FetchResponse := fun u =>
  if u = "https://raw.githubusercontent.com/acme/tools/master/SKILL.md" then
    { ok := true, status := 200, text := "master content" }
  else { ok := false, status := 404, text := "" }

/-- Filesystem with only `/proj/skill/SKILL.md` present. -/
def c7ReadDir : String → Except String String := fun q =>
  if q = "/proj/skill/SKILL.md" then .ok "dir content" else .error ("ENOENT: " ++ q)

/-- Filesystem with only the direct file `/proj/file.md` present. -/
def c7ReadFile : String → Except String String := fun q =>
  if q = "/proj/file.md" then .ok "file content" else .error ("ENOENT: " ++ q)

/-- A project with a pre-existing, user-customised `CLAUDE.md`. -/
def c3Fs : FileSys := fun p =>
  if p = "/proj/CLAUDE.md" then some "user customization" else none

/-- The candidate `CLAUDE.md` bridge file. -/
def c3File : BridgeFile :=
  { filePath := "CLAUDE.md", content := "read the .ai directory", description := "bridge" }

/-- The candidate bridge files for that project. -/
def c3Files : List BridgeFile := [c3File]

/-- Everything fetches successfully with body `"content"`. -/
def c8Fetch : String → FetchResponse := fun _ =>
  { ok := true, status := 200, text := "content" }

/-- A GitHub source with an explicit path whose final split segment is empty. -/
def c8Source : ContentSource := .github ⟨"o", "r", none, some "x/"⟩

/-- The primary raw-content URL with only the branch segment changed to
`master` — the spec's description of the intended fallback URL, for
comparison with the code's string replacement. -/
def masterBranchUrl (source : GitHubSource) : String :=
  "https://raw.githubusercontent.com/" ++ source.owner ++ "/" ++ source.repo ++ "/"
    ++ "master" ++ "/" ++ githubFilePath source

example : parseSource "owner/repo" = .ok (.github { owner := "owner", repo := "repo" }) := rfl

example : parseSource "./foo" = .ok (.«local» "./foo") := rfl

example : parseSource "not a valid source!!" =
    .error ("Unable to parse source: " ++ "not a valid source!!") := rfl

example : parseSource "o/r/sub/dir" =
    .ok (.github { owner := "o", repo := "r", path := some "sub/dir" }) := rfl

example : parseSource "https://github.com/O/R/tree/B/p1/p2" =
    .ok (.github { owner := "O", repo := "R", branch := some "B", path := some "p1/p2" }) := rfl

example : parseSource "https://github.com/O/R/blob/B/p1/SKILL.md" =
    .ok (.github { owner := "O", repo := "R", branch := some "B", path := some "p1" }) := rfl

example : parseSource "https://github.com/O/R" =
    .ok (.github { owner := "O", repo := "R" }) := rfl

example : parseSource "github.com/a/b" = .error ("Invalid URL: " ++ "github.com/a/b") := rfl

example : parseSource "owner/repo/" =
    .ok (.github { owner := "owner", repo := "repo", path := some "" }) := rfl

example : githubFilePath { owner := "a", repo := "b", branch := none, path := some "" } =
    "SKILL.md" := rfl

example : githubRawUrl { owner := "a", repo := "b", branch := none, path := some "" } =
    "https://raw.githubusercontent.com/a/b/main/SKILL.md" := by decide

/-! ## Basic lemmas about the string primitives -/

lemma isPrefixOf_eq_true_iff (l₁ l₂ : List Char) : l₁.isPrefixOf l₂ = true ↔ l₁ <+: l₂ :=
  List.isPrefixOf_iff_prefix

lemma isPrefixOf_append_self (l t : List Char) : l.isPrefixOf (l ++ t) = true :=
  (isPrefixOf_eq_true_iff l (l ++ t)).mpr (List.prefix_append l t)

lemma splitOnChar_eq_of_not_mem {sep : Char} {a : List Char} (h : sep ∉ a) :
    splitOnChar sep a = [a] := by
  induction a with
  | nil => rfl
  | cons c cs ih =>
    have hc : ¬ c = sep := fun hh => h (hh ▸ List.mem_cons_self c cs)
    have := ih (fun hm => h (List.mem_cons_of_mem c hm))
    simp [splitOnChar, hc, this]

lemma splitOnChar_append {sep : Char} {a : List Char} (b : List Char) (h : sep ∉ a) :
    splitOnChar sep (a ++ sep :: b) = a :: splitOnChar sep b := by
  induction a with
  | nil => simp [splitOnChar]
  | cons c cs ih =>
    have hc : ¬ c = sep := fun hh => h (hh ▸ List.mem_cons_self c cs)
    have := ih (fun hm => h (List.mem_cons_of_mem c hm))
    simp [splitOnChar, hc, this]

lemma splitOnChar_ne_nil (sep : Char) (l : List Char) : splitOnChar sep l ≠ [] := by
  cases l with
  | nil => simp [splitOnChar]
  | cons c cs =>
    by_cases hc : c = sep
    · simp [splitOnChar, hc]
    · simp only [splitOnChar, if_neg hc]
      rcases hs : splitOnChar sep cs with _ | ⟨h', t'⟩ <;> simp

lemma joinSlash_cons_cons (c : Char) (h : List Char) (t : List (List Char)) :
    joinSlash ((c :: h) :: t) = c :: joinSlash (h :: t) := by
  cases t with
  | nil => rfl
  | cons x xs => simp [joinSlash]

lemma joinSlash_splitOnChar (l : List Char) : joinSlash (splitOnChar '/' l) = l := by
  induction l with
  | nil => rfl
  | cons c cs ih =>
    by_cases hc : c = '/'
    · subst hc
      simp only [splitOnChar, if_pos rfl]
      rcases hs : splitOnChar '/' cs with _ | ⟨h', t'⟩
      · exact absurd hs (splitOnChar_ne_nil '/' cs)
      · simp only [joinSlash]
        rw [hs] at ih
        simp [ih]
    · simp only [splitOnChar, if_neg hc]
      rcases hs : splitOnChar '/' cs with _ | ⟨h', t'⟩
      · exact absurd hs (splitOnChar_ne_nil '/' cs)
      · rw [hs] at ih
        rw [joinSlash_cons_cons, ih]

lemma containsSub_mem {s pat : List Char} (h : containsSub s pat = true) :
    ∀ c ∈ pat, c ∈ s := by
  induction s with
  | nil =>
    intro c hc
    simp only [containsSub, List.isEmpty_iff] at h
    subst h
    exact absurd hc (List.not_mem_nil c)
  | cons d t ih =>
    intro c hc
    simp only [containsSub, Bool.or_eq_true] at h
    rcases h with h | h
    · exact ((isPrefixOf_eq_true_iff _ _).mp h).subset hc
    · exact List.mem_cons_of_mem d (ih h c hc)

lemma wordHyphen_ne_slash {c : Char} (h : wordHyphen c = true) : c ≠ '/' := by
  rintro rfl
  simp [wordHyphen] at h

lemma wordHyphen_ne_dot {c : Char} (h : wordHyphen c = true) : c ≠ '.' := by
  rintro rfl
  simp [wordHyphen] at h

lemma not_mem_slash_of_all_wordHyphen {l : List Char} (h : l.all wordHyphen = true) :
    '/' ∉ l := by
  intro hm
  exact wordHyphen_ne_slash (List.all_eq_true.mp h '/' hm) rfl

lemma isPrefixOf_cons_false {p c : Char} {pt t : List Char} (h : p ≠ c) :
    (p :: pt).isPrefixOf (c :: t) = false := by
  simp [List.isPrefixOf, h]

/-- C6: `parseSource` maps every string starting with `/`, `./` or `../` to a
local source whose path is the literal input string, and fails with the
`UnparseableSource` error (`Unable to parse source: ...`) for every input
string that matches none of the grammar's patterns. -/
theorem claim_C6_local_and_unparseable (s : String) :
    ((strStartsWith s "/" = true ∨ strStartsWith s "./" = true ∨
        strStartsWith s "../" = true) →
      parseSource s = .ok (.«local» s))
    ∧ (strStartsWith s "/" = false → strStartsWith s "./" = false →
        strStartsWith s "../" = false → containsSubstr s "github.com" = false →
        shorthandTest s = false → shorthandPathTest s = false →
        strStartsWith s "http://" = false → strStartsWith s "https://" = false →
        parseSource s = .error ("Unable to parse source: " ++ s)) := by
  constructor
  · rintro (h | h | h) <;> simp [parseSource, h]
  · intro h1 h2 h3 h4 h5 h6 h7 h8
    simp [parseSource, h1, h2, h3, h4, h5, h6, h7, h8]

/-- Witness for C6 at the spec's concrete inputs. -/
theorem claim_C6_witness :
    parseSource "./foo" = .ok (.«local» "./foo")
    ∧ parseSource "/abs/foo" = .ok (.«local» "/abs/foo")
    ∧ parseSource "not a valid source!!" =
        .error ("Unable to parse source: " ++ "not a valid source!!") :=
  ⟨(claim_C6_local_and_unparseable "./foo").1 (Or.inr (Or.inl (by decide))),
   (claim_C6_local_and_unparseable "/abs/foo").1 (Or.inl (by decide)),
   (claim_C6_local_and_unparseable "not a valid source!!").2 (by decide) (by decide)
     (by decide) (by decide) (by decide) (by decide) (by decide) (by decide)⟩

/-- C4: for every `owner/repo` string whose two components are nonempty runs
of word characters and hyphens, `parseSource` returns a GitHub source with
that owner and repo and neither path nor branch. -/
theorem claim_C4_shorthand (o r : String) (ho : o.data ≠ []) (hr : r.data ≠ [])
    (hwo : o.data.all wordHyphen = true) (hwr : r.data.all wordHyphen = true) :
    parseSource (o ++ "/" ++ r) =
      .ok (.github { owner := o, repo := r, branch := none, path := none }) := by
  have hdata : (o ++ "/" ++ r).data = o.data ++ '/' :: r.data := by
    simp [String.data_append]
  obtain ⟨c, cs, hoc⟩ : ∃ c cs, o.data = c :: cs := by
    cases hod : o.data with
    | nil => exact absurd hod ho
    | cons c cs => exact ⟨c, cs, rfl⟩
  have hcw : wordHyphen c = true :=
    List.all_eq_true.mp hwo c (by rw [hoc]; exact List.mem_cons_self c cs)
  have hsplit0 : splitOnChar '/' (o.data ++ '/' :: r.data) = [o.data, r.data] := by
    rw [splitOnChar_append _ (not_mem_slash_of_all_wordHyphen hwo),
      splitOnChar_eq_of_not_mem (not_mem_slash_of_all_wordHyphen hwr)]
  have hsplit : splitOnChar '/' (o ++ "/" ++ r).data = [o.data, r.data] := by
    rw [hdata, hsplit0]
  have h1 : strStartsWith (o ++ "/" ++ r) "/" = false := by
    unfold strStartsWith
    rw [hdata, hoc]
    exact isPrefixOf_cons_false (Ne.symm (wordHyphen_ne_slash hcw))
  have h2 : strStartsWith (o ++ "/" ++ r) "./" = false := by
    unfold strStartsWith
    rw [hdata, hoc]
    exact isPrefixOf_cons_false (Ne.symm (wordHyphen_ne_dot hcw))
  have h3 : strStartsWith (o ++ "/" ++ r) "../" = false := by
    unfold strStartsWith
    rw [hdata, hoc]
    exact isPrefixOf_cons_false (Ne.symm (wordHyphen_ne_dot hcw))
  have h4 : containsSubstr (o ++ "/" ++ r) "github.com" = false := by
    cases hgc : containsSubstr (o ++ "/" ++ r) "github.com" with
    | false => rfl
    | true =>
      exfalso
      have hdotmem : '.' ∈ (o ++ "/" ++ r).data :=
        containsSub_mem hgc '.' (by decide)
      rw [hdata] at hdotmem
      rcases List.mem_append.mp hdotmem with hm | hm
      · exact wordHyphen_ne_dot (List.all_eq_true.mp hwo '.' hm) rfl
      · rcases List.mem_cons.mp hm with hm | hm
        · exact absurd hm.symm (by decide)
        · exact wordHyphen_ne_dot (List.all_eq_true.mp hwr '.' hm) rfl
  have h5 : shorthandTest (o ++ "/" ++ r) = true := by
    simp only [shorthandTest, hsplit]
    simp [ho, hr, hwo, hwr]
  simp only [parseSource, h1, h2, h3, h4, h5, Bool.false_or, if_false, if_true,
    Bool.or_self, Bool.or_false, if_neg Bool.false_ne_true, ite_true, ite_false]
  simp [hsplit, hsplit0]

/-- Witness for C4 at a concrete shorthand. -/
theorem claim_C4_witness :
    ("vercel".data ≠ [] ∧ "skills".data.all wordHyphen = true)
    ∧ parseSource ("vercel" ++ "/" ++ "skills") =
        .ok (.github { owner := "vercel", repo := "skills", branch := none, path := none }) :=
  ⟨⟨by decide, by decide⟩,
   claim_C4_shorthand "vercel" "skills" (by decide) (by decide) (by decide) (by decide)⟩

lemma fetchSkill_github_ok (fetch : String → FetchResponse)
    (readFile : String → Except String String) (resolve : String → String)
    (parseFrontmatter : String → List (String × String)) (g : GitHubSource) (c : String)
    (h : fetchFromGitHub fetch g = .ok c) :
    ∃ out, fetchSkill fetch readFile resolve parseFrontmatter (.github g) = .ok out
      ∧ out.content = c := by
  obtain ⟨i, hi⟩ : ∃ i, deriveId (.github g) = .ok i := ⟨_, rfl⟩
  refine ⟨{ id := i, name := fallbackStr ((parseFrontmatter c).lookup "name") i,
            description := fallbackStr ((parseFrontmatter c).lookup "description") "",
            content := c, source := .github g }, ?_, rfl⟩
  simp [fetchSkill, h, hi, Bind.bind, Except.bind]

/-- C1: for a GitHub source with no explicit branch (implicit default `main`),
when the fetch of the main-branch raw URL is not ok and the master-branch
fallback fetch is ok, `fetchFromGitHub` returns the master content, and
`fetchSkill` succeeds with that content — no error is surfaced. -/
theorem claim_C1_main_master_fallback (fetch : String → FetchResponse) (o r : String)
    (p : Option String)
    (h1 : (fetch (githubRawUrl ⟨o, r, none, p⟩)).ok = false)
    (h2 : (fetch (masterFallbackUrl ⟨o, r, none, p⟩)).ok = true) :
    fetchFromGitHub fetch ⟨o, r, none, p⟩ =
      .ok (fetch (masterFallbackUrl ⟨o, r, none, p⟩)).text
    ∧ ∀ readFile resolve parseFrontmatter, ∃ out,
        fetchSkill fetch readFile resolve parseFrontmatter (.github ⟨o, r, none, p⟩) =
          .ok out
        ∧ out.content = (fetch (masterFallbackUrl ⟨o, r, none, p⟩)).text := by
  have hb : effectiveBranch ⟨o, r, none, p⟩ = "main" := rfl
  have hmain : fetchFromGitHub fetch ⟨o, r, none, p⟩ =
      .ok (fetch (masterFallbackUrl ⟨o, r, none, p⟩)).text := by
    simp [fetchFromGitHub, hb, h1, h2]
  exact ⟨hmain, fun readFile resolve parseFrontmatter =>
    fetchSkill_github_ok fetch readFile resolve parseFrontmatter _ _ hmain⟩

/-- Witness for C1: the concrete `acme/kit` source with no branch. -/
theorem claim_C1_witness :
    (c1Fetch (githubRawUrl ⟨"acme", "kit", none, none⟩)).ok = false
    ∧ fetchFromGitHub c1Fetch ⟨"acme", "kit", none, none⟩ =
        .ok (c1Fetch (masterFallbackUrl ⟨"acme", "kit", none, none⟩)).text :=
  ⟨by decide,
   (claim_C1_main_master_fallback c1Fetch "acme" "kit" none (by decide) (by decide)).1⟩

/-- C2 counterexample: the source explicitly specifies branch `"main"`, its
fetch fails, and `fetchFromGitHub` still falls back to `master` and succeeds —
so a fetch failure on an explicitly specified branch is not always immediately
fatal, contradicting the claim. -/
theorem claim_C2_counterexample :
    (⟨"acme", "tools", some "main", none⟩ : GitHubSource).branch = some "main"
    ∧ (c2Fetch (githubRawUrl ⟨"acme", "tools", some "main", none⟩)).ok = false
    ∧ fetchFromGitHub c2Fetch ⟨"acme", "tools", some "main", none⟩ =
        .ok "master content" :=
  ⟨rfl, by decide, rfl⟩

/-- C2 (amended): the fallback is attempted exactly when the effective branch
(the explicit branch when nonempty, else the default `main`) equals `main` —
also when `main` was explicitly specified; for any other effective branch a
fetch failure is immediately fatal with no fallback attempt, and the error
carries the HTTP status of the failed response (but not the attempted URL). -/
theorem claim_C2_fallback_rule (fetch : String → FetchResponse) (g : GitHubSource) :
    (effectiveBranch g ≠ "main" → (fetch (githubRawUrl g)).ok = false →
      fetchFromGitHub fetch g =
        .error ("Failed to fetch from GitHub: " ++ toString (fetch (githubRawUrl g)).status))
    ∧ (effectiveBranch g = "main" → (fetch (githubRawUrl g)).ok = false →
        (fetch (masterFallbackUrl g)).ok = true →
        fetchFromGitHub fetch g = .ok (fetch (masterFallbackUrl g)).text)
    ∧ (effectiveBranch g = "main" → (fetch (githubRawUrl g)).ok = false →
        (fetch (masterFallbackUrl g)).ok = false →
        fetchFromGitHub fetch g =
          .error ("Failed to fetch from GitHub: " ++ toString (fetch (githubRawUrl g)).status))
    ∧ (g.branch = some "main" → effectiveBranch g = "main") := by
  refine ⟨?_, ?_, ?_, ?_⟩
  · intro hb h1
    simp [fetchFromGitHub, h1, hb]
  · intro hb h1 h2
    simp [fetchFromGitHub, h1, h2, hb]
  · intro hb h1 h2
    simp [fetchFromGitHub, h1, h2, hb]
  · intro hb
    simp [effectiveBranch, hb]

/-- Witness for C2's amended rule: an explicit `dev` branch fails fatally with
the status in the message; the explicit `main` branch falls back. -/
theorem claim_C2_witness :
    fetchFromGitHub c2Fetch ⟨"acme", "tools", some "dev", none⟩ =
      .error ("Failed to fetch from GitHub: " ++ toString 404)
    ∧ fetchFromGitHub c2Fetch ⟨"acme", "tools", some "main", none⟩ =
        .ok (c2Fetch (masterFallbackUrl ⟨"acme", "tools", some "main", none⟩)).text :=
  ⟨by
    have h := (claim_C2_fallback_rule c2Fetch ⟨"acme", "tools", some "dev", none⟩).1
      (by decide) (by decide)
    simpa using h,
   (claim_C2_fallback_rule c2Fetch ⟨"acme", "tools", some "main", none⟩).2.1
     (by decide) (by decide) (by decide)⟩

/-- C7: for a local source, the read of `<resolved>/SKILL.md` is attempted
first and decides the result when it succeeds; only when it fails is
`<resolved>` itself read, and if that second read succeeds its content is
returned with the first failure never surfaced. -/
theorem claim_C7_local_two_step (readFile : String → Except String String)
    (resolve : String → String) (p : String) :
    (∀ c, readFile (resolve p ++ "/SKILL.md") = .ok c →
      fetchFromLocal readFile resolve p = .ok c)
    ∧ (∀ e c, readFile (resolve p ++ "/SKILL.md") = .error e →
        readFile (resolve p) = .ok c →
        fetchFromLocal readFile resolve p = .ok c) := by
  constructor
  · intro c h
    simp [fetchFromLocal, h]
  · intro e c h1 h2
    simp [fetchFromLocal, h1, h2]

/-- Witness for C7: both probe orders at concrete filesystems. -/
theorem claim_C7_witness :
    fetchFromLocal c7ReadDir (fun s => s) "/proj/skill" = .ok "dir content"
    ∧ fetchFromLocal c7ReadFile (fun s => s) "/proj/file.md" = .ok "file content" :=
  ⟨(claim_C7_local_two_step c7ReadDir (fun s => s) "/proj/skill").1 "dir content" rfl,
   (claim_C7_local_two_step c7ReadFile (fun s => s) "/proj/file.md").2
     ("ENOENT: " ++ ("/proj/file.md" ++ "/SKILL.md")) "file content" rfl rfl⟩

lemma writeBridge_preserves (files : List BridgeFile) (fs : FileSys) (root p : String)
    (hp : (fs p).isSome = true) :
    (writeBridgeFiles fs files root false).1 p = fs p := by
  induction files generalizing fs with
  | nil => rfl
  | cons f rest ih =>
    by_cases hd : (fs (bridgeDest root f)).isSome = true
    · simp only [writeBridgeFiles, hd, Bool.not_false, Bool.and_true]
      exact ih fs hp
    · have hne : p ≠ bridgeDest root f := fun he => hd (he ▸ hp)
      simp only [writeBridgeFiles, Bool.not_false, Bool.and_true,
        Bool.not_eq_true] at hd ⊢
      rw [if_neg (by simp [hd])]
      have hp' : ((fun q => if q = bridgeDest root f then some f.content else fs q) p).isSome
          = true := by
        simp only [if_neg hne]
        exact hp
      calc (writeBridgeFiles (fun q => if q = bridgeDest root f then some f.content else fs q)
              rest root false).1 p
          = (if p = bridgeDest root f then some f.content else fs p) := ih _ hp'
        _ = fs p := if_neg hne

lemma writeBridge_skips (files : List BridgeFile) (fs : FileSys) (root : String)
    (f : BridgeFile) (hf : f ∈ files) (hex : (fs (bridgeDest root f)).isSome = true) :
    f.filePath ∈ (writeBridgeFiles fs files root false).2.2 := by
  induction files generalizing fs with
  | nil => cases hf
  | cons g rest ih =>
    rcases List.mem_cons.mp hf with rfl | hf'
    · simp [writeBridgeFiles, hex]
    · by_cases hd : (fs (bridgeDest root g)).isSome = true
      · simp only [writeBridgeFiles, hd, Bool.not_false, Bool.and_true]
        exact List.mem_cons_of_mem _ (ih fs hf' hex)
      · have hex' : ((fun q => if q = bridgeDest root g then some g.content else fs q)
            (bridgeDest root f)).isSome = true := by
          by_cases he : bridgeDest root f = bridgeDest root g
          · simp [he]
          · simp [he, hex]
        simp only [writeBridgeFiles, Bool.not_false, Bool.and_true,
          Bool.not_eq_true] at hd ⊢
        rw [if_neg (by simp [hd])]
        exact ih _ hf' hex'

/-- C3: with `overwrite = false`, every candidate bridge file whose
destination already exists is reported as skipped and the destination's
content is left unchanged; the automatic post-install bridge generation
invokes the writer with `overwrite = false`. -/
theorem claim_C3_bridge_no_clobber (fs : FileSys) (files : List BridgeFile)
    (root : String) (f : BridgeFile) (hf : f ∈ files)
    (hex : (fs (bridgeDest root f)).isSome = true) :
    f.filePath ∈ (writeBridgeFiles fs files root false).2.2
    ∧ (writeBridgeFiles fs files root false).1 (bridgeDest root f) = fs (bridgeDest root f)
    ∧ autoGenerateBridgeFiles root fs files = writeBridgeFiles fs files root false :=
  ⟨writeBridge_skips files fs root f hf hex,
   writeBridge_preserves files fs root (bridgeDest root f) hex, rfl⟩

/-- Witness for C3: the pre-existing `CLAUDE.md` is skipped and unchanged. -/
theorem claim_C3_witness :
    "CLAUDE.md" ∈ (writeBridgeFiles c3Fs c3Files "/proj" false).2.2
    ∧ (writeBridgeFiles c3Fs c3Files "/proj" false).1 (bridgeDest "/proj" c3File)
      = c3Fs (bridgeDest "/proj" c3File) :=
  ⟨(claim_C3_bridge_no_clobber c3Fs c3Files "/proj" c3File (by decide) (by decide)).1,
   (claim_C3_bridge_no_clobber c3Fs c3Files "/proj" c3File (by decide) (by decide)).2.1⟩

lemma dropWhile_append_of_all {p : Char → Bool} {a : List Char} (b : List Char)
    (h : ∀ c ∈ a, p c = true) :
    (a ++ b).dropWhile p = b.dropWhile p := by
  induction a with
  | nil => rfl
  | cons c cs ih =>
    have hc : p c = true := h c (List.mem_cons_self c cs)
    simp only [List.cons_append, List.dropWhile_cons, hc, if_true]
    exact ih (fun d hd => h d (List.mem_cons_of_mem c hd))

lemma splitAtColon_append {a : List Char} (b : List Char) (h : ':' ∉ a) :
    splitAtColon (a ++ ':' :: b) = some (a, b) := by
  induction a with
  | nil => simp [splitAtColon]
  | cons c cs ih =>
    have hc : ¬ c = ':' := fun hh => h (hh ▸ List.mem_cons_self c cs)
    have := ih (fun hm => h (List.mem_cons_of_mem c hm))
    simp [splitAtColon, hc, this]

lemma containsSub_occurs (s pat : List Char) : containsSub s pat = true ↔ pat <:+: s := by
  induction s with
  | nil =>
    simp [containsSub, List.isEmpty_iff, List.infix_nil]
  | cons c t ih =>
    simp only [containsSub, Bool.or_eq_true, isPrefixOf_eq_true_iff, ih]
    exact Iff.symm List.infix_cons_iff

lemma urlPathnameE_error_shape {u : String} {e : String} (h : urlPathnameE u = .error e) :
    e = "Invalid URL: " ++ u := by
  unfold urlPathnameE at h
  split at h
  · exact (Except.error.inj h).symm
  · split at h
    · split at h
      · split at h
        · exact Except.noConfusion h
        · exact Except.noConfusion h
      · exact Except.noConfusion h
    · exact (Except.error.inj h).symm

lemma parseGitHubUrl_error_shape {u e : String} (h : parseGitHubUrl u = .error e) :
    e = "Invalid URL: " ++ u ∨ e = "Invalid GitHub URL: " ++ u := by
  unfold parseGitHubUrl at h
  rcases hp : urlPathnameE u with e0 | pn
  · rw [hp] at h
    have h2 : e0 = e := Except.error.inj h
    exact Or.inl (by rw [← h2]; exact urlPathnameE_error_shape hp)
  · rw [hp] at h
    simp only [Bind.bind, Except.bind] at h
    split at h
    · exact Or.inr (Except.error.inj h).symm
    · exact Except.noConfusion h

/-- C9 counterexample: the input `"/github.com"` contains `github.com` but is
parsed as a local source (the local-prefix check precedes the `github.com`
check), so not every string containing `github.com` is routed to the GitHub
URL parser. -/
theorem claim_C9_counterexample :
    containsSubstr "/github.com" "github.com" = true
    ∧ parseSource "/github.com" = .ok (.«local» "/github.com") :=
  ⟨by decide, rfl⟩

/-- C9 (amended): every input string containing `github.com` that does not
start with `/`, `./` or `../` is routed to the GitHub URL parser and never
yields a url, local, or shorthand source; a string with no URL scheme fails
with the URL-construction error, a URL whose path has fewer than two nonempty
segments fails with `Invalid GitHub URL`, and every error from this route is
distinct from `UnparseableSource`. -/
theorem claim_C9_github_com_routing (s : String)
    (hc : containsSubstr s "github.com" = true)
    (h1 : strStartsWith s "/" = false) (h2 : strStartsWith s "./" = false)
    (h3 : strStartsWith s "../" = false) :
    parseSource s = (parseGitHubUrl s).map .github
    ∧ (∀ res, parseSource s = .ok res → ∃ g, res = .github g)
    ∧ (splitAtColon s.data = none → parseSource s = .error ("Invalid URL: " ++ s))
    ∧ (∀ pn, urlPathnameE s = .ok pn →
        ((splitOnChar '/' pn.data).filter (· ≠ [])).length < 2 →
        parseSource s = .error ("Invalid GitHub URL: " ++ s))
    ∧ (∀ e, parseSource s = .error e → e ≠ "Unable to parse source: " ++ s) := by
  have hroute : parseSource s = (parseGitHubUrl s).map .github := by
    simp [parseSource, h1, h2, h3, hc]
  refine ⟨hroute, ?_, ?_, ?_, ?_⟩
  · intro res h
    rw [hroute] at h
    rcases hg : parseGitHubUrl s with e0 | g <;> rw [hg] at h
    · simp [Except.map] at h
    · simp only [Except.map] at h
      exact ⟨g, (Except.ok.inj h).symm⟩
  · intro hnone
    have hup : urlPathnameE s = .error ("Invalid URL: " ++ s) := by
      unfold urlPathnameE
      rw [hnone]
    have hgp : parseGitHubUrl s = .error ("Invalid URL: " ++ s) := by
      unfold parseGitHubUrl
      rw [hup]
      rfl
    rw [hroute, hgp]
    rfl
  · intro pn hpn hlen
    have hgp : parseGitHubUrl s = .error ("Invalid GitHub URL: " ++ s) := by
      unfold parseGitHubUrl
      rw [hpn]
      simp only [Bind.bind, Except.bind]
      rw [if_pos hlen]
    rw [hroute, hgp]
    rfl
  · intro e he hcontra
    rw [hroute] at he
    rcases hg : parseGitHubUrl s with e0 | g <;> rw [hg] at he
    · have he0 : e0 = e := by simpa [Except.map] using he
      subst he0
      rcases parseGitHubUrl_error_shape hg with h4 | h4 <;> rw [h4] at hcontra <;>
        [have hpre : "Invalid URL: ".data.length = 13 := rfl;
         have hpre : "Invalid GitHub URL: ".data.length = 20 := rfl] <;>
        · have hun : "Unable to parse source: ".data.length = 24 := rfl
          have hlen := congrArg (fun t => t.data.length) hcontra
          simp only [String.data_append, List.length_append] at hlen
          rw [hpre, hun] at hlen
          omega
    · simp [Except.map] at he

/-- Witness for C9's amended routing at concrete inputs: a schemeless string
containing `github.com` fails with the URL-construction error, and a GitHub
URL with fewer than two path segments fails with `Invalid GitHub URL`. -/
theorem claim_C9_witness :
    parseSource "github.com/a/b" = .error ("Invalid URL: " ++ "github.com/a/b")
    ∧ parseSource "https://github.com" =
        .error ("Invalid GitHub URL: " ++ "https://github.com") :=
  ⟨(claim_C9_github_com_routing "github.com/a/b" (by decide) (by decide) (by decide)
      (by decide)).2.2.1 (by decide),
   (claim_C9_github_com_routing "https://github.com" (by decide) (by decide) (by decide)
      (by decide)).2.2.2.1 "/" rfl (by decide)⟩

lemma except_bind_ok {α β ε : Type} {x : Except ε α} {f : α → Except ε β} {b : β}
    (h : (x >>= f) = .ok b) : ∃ a, x = .ok a ∧ f a = .ok b := by
  rcases x with e | a
  · exact Except.noConfusion h
  · exact ⟨a, rfl, h⟩

lemma fetchSkill_ok_id {fetch : String → FetchResponse}
    {readFile : String → Except String String} {resolve : String → String}
    {parseFrontmatter : String → List (String × String)} {src : ContentSource}
    {out : FetchedSkill}
    (h : fetchSkill fetch readFile resolve parseFrontmatter src = .ok out) :
    deriveId src = .ok out.id := by
  unfold fetchSkill at h
  rcases src with g | u | p <;>
  · obtain ⟨c, hc, h2⟩ := except_bind_ok h
    obtain ⟨i, hi, h3⟩ := except_bind_ok h2
    rw [hi, ← Except.ok.inj h3]

/-- C8 counterexample: for the GitHub source `o/r` with explicit path `"x/"`
(whose final `/`-split segment is empty), the successfully fetched item's
derived identifier is the repository name `"r"` — not the path's final
segment (`""`), not the fixed constant default (`"skill"`), and not the last
nonempty segment (`"x"`) — so the claimed case analysis fails at this input. -/
theorem claim_C8_counterexample :
    fetchSkill c8Fetch (fun q => .error q) (fun s => s) (fun _ => []) c8Source =
      .ok { id := "r", name := "r", description := "", content := "content",
            source := c8Source }
    ∧ ("r" : String) ≠ "" ∧ ("r" : String) ≠ "skill" ∧ ("r" : String) ≠ "x" :=
  ⟨rfl, by decide, by decide, by decide⟩

/-- C8 (amended): the identifier of every successfully fetched item equals
`deriveId` of its source, which is: for a GitHub source with an explicit
path, the final `/`-split segment of the path when that segment is nonempty
and the repository name when it is empty; the repository name for a GitHub
source without a path; the POSIX basename of the path for a local source; and
for a url source the final nonempty segment of the URL pathname, with the
constant `"skill"` only when the pathname has no nonempty segment. -/
theorem claim_C8_derived_identifier :
    (∀ fetch readFile resolve parseFrontmatter src out,
      fetchSkill fetch readFile resolve parseFrontmatter src = .ok out →
      deriveId src = .ok out.id)
    ∧ (∀ g : GitHubSource, ∀ p : String, g.path = some p →
        (⟨(splitOnChar '/' p.data).getLastD []⟩ : String) ≠ "" →
        deriveId (.github g) = .ok ⟨(splitOnChar '/' p.data).getLastD []⟩)
    ∧ (∀ g : GitHubSource, ∀ p : String, g.path = some p →
        (⟨(splitOnChar '/' p.data).getLastD []⟩ : String) = "" →
        deriveId (.github g) = .ok g.repo)
    ∧ (∀ g : GitHubSource, g.path = none → deriveId (.github g) = .ok g.repo)
    ∧ (∀ p : String, deriveId (.«local» p) = .ok (posixBasename p))
    ∧ (∀ u pn : String, urlPathnameE u = .ok pn →
        (∀ l, ((splitOnChar '/' pn.data).filter (· ≠ [])).getLast? = some l →
          deriveId (.url u) = .ok ⟨l⟩)
        ∧ (((splitOnChar '/' pn.data).filter (· ≠ [])).getLast? = none →
          deriveId (.url u) = .ok "skill")) := by
  refine ⟨fun _ _ _ _ _ _ h => fetchSkill_ok_id h, ?_, ?_, ?_, ?_, ?_⟩
  · intro g p hp hne
    simp only [deriveId]
    rw [hp]
    simp only []
    rw [if_neg hne]
  · intro g p hp he
    simp only [deriveId]
    rw [hp]
    simp only []
    rw [if_pos he]
  · intro g hp
    simp only [deriveId]
    rw [hp]
  · intro p
    rfl
  · intro u pn hpn
    constructor
    · intro l hl
      simp only [deriveId]
      rw [hpn]
      simp only [Bind.bind, Except.bind]
      rw [hl]
    · intro hl
      simp only [deriveId]
      rw [hpn]
      simp only [Bind.bind, Except.bind]
      rw [hl]

/-- Witness for C8's amended derivation rule at concrete sources of every
kind. -/
theorem claim_C8_witness :
    deriveId (.github ⟨"o", "r", none, some "a/b"⟩) = .ok "b"
    ∧ deriveId (.github ⟨"o", "r", none, none⟩) = .ok "r"
    ∧ deriveId (.«local» "x/y") = .ok (posixBasename "x/y")
    ∧ deriveId (.url "https://example.com/a/pack") = .ok "pack"
    ∧ deriveId (.url "https://example.com") = .ok "skill" := by
  refine ⟨?_, ?_, ?_, ?_, ?_⟩
  · exact claim_C8_derived_identifier.2.1 ⟨"o", "r", none, some "a/b"⟩ "a/b" rfl (by decide)
  · exact claim_C8_derived_identifier.2.2.2.1 ⟨"o", "r", none, none⟩ rfl
  · exact claim_C8_derived_identifier.2.2.2.2.1 "x/y"
  · exact (claim_C8_derived_identifier.2.2.2.2.2 "https://example.com/a/pack" "/a/pack"
      rfl).1 "pack".data rfl
  · exact (claim_C8_derived_identifier.2.2.2.2.2 "https://example.com" "/" rfl).2 rfl

lemma takeWhile_all {p : Char → Bool} {l : List Char} (h : ∀ c ∈ l, p c = true) :
    l.takeWhile p = l :=
  List.takeWhile_eq_self_iff.mpr h

lemma urlPathnameE_github_shape (u : String) (Y : List Char)
    (hu : u.data = "https://github.com/".data ++ Y)
    (hY : ∀ c ∈ Y, pathStop c = false) :
    urlPathnameE u = .ok ⟨'/' :: Y⟩ := by
  have hstep : ∀ z : List Char,
      splitAtColon ('h' :: 't' :: 't' :: 'p' :: 's' :: ':' :: z) = some ("https".data, z) := by
    intro z
    simp [splitAtColon]
  have hu2 : u.data
      = 'h' :: 't' :: 't' :: 'p' :: 's' :: ':' :: ('/' :: '/' :: ("github.com".data ++ '/' :: Y)) := by
    rw [hu, show "https://github.com/".data
        = 'h' :: 't' :: 't' :: 'p' :: 's' :: ':' :: '/' :: '/' :: ("github.com".data ++ ['/'])
        from by decide]
    simp
  have hcol : splitAtColon u.data
      = some ("https".data, '/' :: '/' :: ("github.com".data ++ '/' :: Y)) := by
    rw [hu2]
    exact hstep _
  unfold urlPathnameE
  rw [hcol]
  simp only []
  rw [if_pos (show validScheme "https".data = true from by decide)]
  rw [if_pos (show (['/', '/'].isPrefixOf
      ('/' :: '/' :: ("github.com".data ++ '/' :: Y))) = true from rfl)]
  have hdrop : (('/' :: '/' :: ("github.com".data ++ '/' :: Y)).drop 2).dropWhile
      (fun c => !(c == '/' || pathStop c)) = '/' :: Y := by
    show ("github.com".data ++ '/' :: Y).dropWhile (fun c => !(c == '/' || pathStop c))
      = '/' :: Y
    rw [dropWhile_append_of_all _ (by decide)]
    rw [List.dropWhile_cons]
    simp
  rw [hdrop]
  simp only []
  rw [takeWhile_all]
  intro c hc
  rcases List.mem_cons.mp hc with rfl | hc
  · rfl
  · simp [hY c hc]

lemma parseSource_github_url_eq (O R B P kw : String)
    (hkw : kw = "tree" ∨ kw = "blob")
    (hO : O.data ≠ []) (hOc : ∀ c ∈ O.data, c ≠ '/' ∧ c ≠ '?' ∧ c ≠ '#')
    (hR : R.data ≠ []) (hRc : ∀ c ∈ R.data, c ≠ '/' ∧ c ≠ '?' ∧ c ≠ '#')
    (hB : B.data ≠ []) (hBc : ∀ c ∈ B.data, c ≠ '/' ∧ c ≠ '?' ∧ c ≠ '#')
    (hPs : ∀ seg ∈ splitOnChar '/' P.data, seg ≠ [])
    (hPc : ∀ c ∈ P.data, c ≠ '?' ∧ c ≠ '#') :
    parseSource ("https://github.com/" ++ O ++ "/" ++ R ++ "/" ++ kw ++ "/" ++ B ++ "/" ++ P)
      = .ok (.github { owner := O, repo := R, branch := some B,
                       path := some (stripSkillMd P) }) := by
  have hkwne : kw.data ≠ [] := by
    rcases hkw with h | h <;> subst h <;> decide
  have hkwc : ∀ c ∈ kw.data, c ≠ '/' ∧ c ≠ '?' ∧ c ≠ '#' := by
    rcases hkw with h | h <;> subst h <;> decide
  have hud : ("https://github.com/" ++ O ++ "/" ++ R ++ "/" ++ kw ++ "/" ++ B ++ "/" ++ P).data
      = "https://github.com/".data
        ++ (O.data ++ '/' :: (R.data ++ '/' :: (kw.data ++ '/' :: (B.data ++ '/' :: P.data))))
      := by
    simp [String.data_append]
  have hkwslash : '/' ∉ kw.data := fun hm => (hkwc _ hm).1 rfl
  have hOslash : '/' ∉ O.data := fun hm => (hOc _ hm).1 rfl
  have hRslash : '/' ∉ R.data := fun hm => (hRc _ hm).1 rfl
  have hBslash : '/' ∉ B.data := fun hm => (hBc _ hm).1 rfl
  have h1 : strStartsWith
      ("https://github.com/" ++ O ++ "/" ++ R ++ "/" ++ kw ++ "/" ++ B ++ "/" ++ P) "/"
      = false := by
    unfold strStartsWith
    rw [hud, show "https://github.com/".data = 'h' :: "ttps://github.com/".data from rfl,
      List.cons_append]
    exact isPrefixOf_cons_false (by decide)
  have h2 : strStartsWith
      ("https://github.com/" ++ O ++ "/" ++ R ++ "/" ++ kw ++ "/" ++ B ++ "/" ++ P) "./"
      = false := by
    unfold strStartsWith
    rw [hud, show "https://github.com/".data = 'h' :: "ttps://github.com/".data from rfl,
      List.cons_append]
    exact isPrefixOf_cons_false (by decide)
  have h3 : strStartsWith
      ("https://github.com/" ++ O ++ "/" ++ R ++ "/" ++ kw ++ "/" ++ B ++ "/" ++ P) "../"
      = false := by
    unfold strStartsWith
    rw [hud, show "https://github.com/".data = 'h' :: "ttps://github.com/".data from rfl,
      List.cons_append]
    exact isPrefixOf_cons_false (by decide)
  have h4 : containsSubstr
      ("https://github.com/" ++ O ++ "/" ++ R ++ "/" ++ kw ++ "/" ++ B ++ "/" ++ P)
      "github.com" = true := by
    unfold containsSubstr
    rw [containsSub_occurs, hud,
      show "https://github.com/".data = "https://".data ++ ("github.com".data ++ ['/'])
        from by decide]
    refine ⟨"https://".data,
      '/' :: (O.data ++ '/' :: (R.data ++ '/' :: (kw.data ++ '/' :: (B.data ++ '/' :: P.data)))),
      ?_⟩
    simp
  have hpn : urlPathnameE
      ("https://github.com/" ++ O ++ "/" ++ R ++ "/" ++ kw ++ "/" ++ B ++ "/" ++ P)
      = .ok ⟨'/' :: (O.data ++ '/' :: (R.data ++ '/' :: (kw.data ++ '/' :: (B.data ++ '/' :: P.data))))⟩ := by
    apply urlPathnameE_github_shape
    · exact hud
    · intro c hc
      have hstop : c ≠ '?' ∧ c ≠ '#' → pathStop c = false := by
        intro hcc
        simp [pathStop, hcc.1, hcc.2]
      rcases List.mem_append.mp hc with hm | hm
      · exact hstop (⟨(hOc c hm).2.1, (hOc c hm).2.2⟩)
      · rcases List.mem_cons.mp hm with rfl | hm
        · rfl
        · rcases List.mem_append.mp hm with hm | hm
          · exact hstop (⟨(hRc c hm).2.1, (hRc c hm).2.2⟩)
          · rcases List.mem_cons.mp hm with rfl | hm
            · rfl
            · rcases List.mem_append.mp hm with hm | hm
              · exact hstop (⟨(hkwc c hm).2.1, (hkwc c hm).2.2⟩)
              · rcases List.mem_cons.mp hm with rfl | hm
                · rfl
                · rcases List.mem_append.mp hm with hm | hm
                  · exact hstop (⟨(hBc c hm).2.1, (hBc c hm).2.2⟩)
                  · rcases List.mem_cons.mp hm with rfl | hm
                    · rfl
                    · exact hstop (hPc c hm)
  have hsplitY : splitOnChar '/'
      ('/' :: (O.data ++ '/' :: (R.data ++ '/' :: (kw.data ++ '/' :: (B.data ++ '/' :: P.data)))))
      = [] :: O.data :: R.data :: kw.data :: B.data :: splitOnChar '/' P.data := by
    rw [show splitOnChar '/'
        ('/' :: (O.data ++ '/' :: (R.data ++ '/' :: (kw.data ++ '/' :: (B.data ++ '/' :: P.data)))))
        = [] :: splitOnChar '/'
            (O.data ++ '/' :: (R.data ++ '/' :: (kw.data ++ '/' :: (B.data ++ '/' :: P.data))))
        from by simp [splitOnChar]]
    rw [splitOnChar_append _ hOslash, splitOnChar_append _ hRslash,
      splitOnChar_append _ hkwslash, splitOnChar_append _ hBslash]
  have hfP : (splitOnChar '/' P.data).filter (· ≠ []) = splitOnChar '/' P.data := by
    rw [List.filter_eq_self]
    intro a ha
    simpa using hPs a ha
  have hfilter : (([] : List Char) :: O.data :: R.data :: kw.data :: B.data
        :: splitOnChar '/' P.data).filter (· ≠ [])
      = O.data :: R.data :: kw.data :: B.data :: splitOnChar '/' P.data := by
    simp only [List.filter_cons]
    simp [hO, hR, hkwne, hB, hfP]
    exact hPs
  obtain ⟨s0, srest, hsplitP⟩ : ∃ s0 srest, splitOnChar '/' P.data = s0 :: srest := by
    rcases h : splitOnChar '/' P.data with _ | ⟨a, b⟩
    · exact absurd h (splitOnChar_ne_nil '/' P.data)
    · exact ⟨a, b, rfl⟩
  have hkwtb : kw.data = "tree".data ∨ kw.data = "blob".data := by
    rcases hkw with hk | hk <;> subst hk
    · exact Or.inl rfl
    · exact Or.inr rfl
  have hgp : parseGitHubUrl
      ("https://github.com/" ++ O ++ "/" ++ R ++ "/" ++ kw ++ "/" ++ B ++ "/" ++ P)
      = .ok { owner := O, repo := R, branch := some B, path := some (stripSkillMd P) } := by
    unfold parseGitHubUrl
    rw [hpn]
    simp only [Bind.bind, Except.bind]
    rw [hsplitY, hfilter, hsplitP]
    rw [if_neg (show ¬ ((O.data :: R.data :: kw.data :: B.data :: s0 :: srest).length < 2) from by
      simp only [List.length_cons]
      omega)]
    have hgd : (O.data :: R.data :: kw.data :: B.data :: s0 :: srest).getD 2 [] = kw.data := rfl
    have hc1 : (decide ((O.data :: R.data :: kw.data :: B.data :: s0 :: srest).getD 2 []
          = "tree".data)
        || decide ((O.data :: R.data :: kw.data :: B.data :: s0 :: srest).getD 2 []
          = "blob".data)) = true := by
      rw [hgd]
      rcases hkwtb with hk | hk <;> rw [hk] <;> simp
    have hlen5 : (O.data :: R.data :: kw.data :: B.data :: s0 :: srest).length > 4 := by
      simp only [List.length_cons]
      omega
    have hc2 : ((decide ((O.data :: R.data :: kw.data :: B.data :: s0 :: srest).getD 2 []
          = "tree".data)
        || decide ((O.data :: R.data :: kw.data :: B.data :: s0 :: srest).getD 2 []
          = "blob".data))
        && decide ((O.data :: R.data :: kw.data :: B.data :: s0 :: srest).length > 4))
        = true := by
      rw [hc1, decide_eq_true hlen5]
      rfl
    rw [if_pos hc1, if_pos hc2]
    rw [show joinSlash (List.drop 4 (O.data :: R.data :: kw.data :: B.data :: s0 :: srest))
        = P.data from by
      rw [show List.drop 4 (O.data :: R.data :: kw.data :: B.data :: s0 :: srest)
          = s0 :: srest from rfl, ← hsplitP]
      exact joinSlash_splitOnChar P.data]
    rfl
  rw [show parseSource ("https://github.com/" ++ O ++ "/" ++ R ++ "/" ++ kw ++ "/" ++ B ++ "/" ++ P)
      = (parseGitHubUrl ("https://github.com/" ++ O ++ "/" ++ R ++ "/" ++ kw ++ "/" ++ B ++ "/" ++ P)).map .github
      from by simp [parseSource, h1, h2, h3, h4]]
  rw [hgp]
  rfl

lemma stripSkillMd_no_suffix {P : String} (h : strEndsWith P "/SKILL.md" = false) :
    stripSkillMd P = P := by
  unfold stripSkillMd
  rw [h]
  rfl

lemma stripSkillMd_append (Q : String) : stripSkillMd (Q ++ "/SKILL.md") = Q := by
  have hsuf : strEndsWith (Q ++ "/SKILL.md") "/SKILL.md" = true := by
    unfold strEndsWith
    rw [ List.isSuffixOf_iff_suffix, String.data_append]
    exact List.suffix_append _ _
  unfold stripSkillMd
  rw [hsuf, if_pos rfl]
  simp only [String.data_append, List.length_append]
  rw [show ("/SKILL.md".data).length = 9 from rfl, Nat.add_sub_cancel, List.take_left]

/-- C5: for every GitHub URL `https://github.com/O/R/tree/B/P` (or the `blob`
variant) built from well-formed segments, `parseSource` returns a GitHub
source with owner `O`, repo `R`, branch `B` and path `P`; a trailing
`/SKILL.md` in `P` is stripped from the returned path. -/
theorem claim_C5_github_tree_blob_url (O R B P kw : String)
    (hkw : kw = "tree" ∨ kw = "blob")
    (hO : O.data ≠ []) (hOc : ∀ c ∈ O.data, c ≠ '/' ∧ c ≠ '?' ∧ c ≠ '#')
    (hR : R.data ≠ []) (hRc : ∀ c ∈ R.data, c ≠ '/' ∧ c ≠ '?' ∧ c ≠ '#')
    (hB : B.data ≠ []) (hBc : ∀ c ∈ B.data, c ≠ '/' ∧ c ≠ '?' ∧ c ≠ '#')
    (hPs : ∀ seg ∈ splitOnChar '/' P.data, seg ≠ [])
    (hPc : ∀ c ∈ P.data, c ≠ '?' ∧ c ≠ '#') :
    (strEndsWith P "/SKILL.md" = false →
      parseSource ("https://github.com/" ++ O ++ "/" ++ R ++ "/" ++ kw ++ "/" ++ B ++ "/" ++ P)
        = .ok (.github { owner := O, repo := R, branch := some B, path := some P }))
    ∧ (∀ Q : String, P = Q ++ "/SKILL.md" →
      parseSource ("https://github.com/" ++ O ++ "/" ++ R ++ "/" ++ kw ++ "/" ++ B ++ "/" ++ P)
        = .ok (.github { owner := O, repo := R, branch := some B, path := some Q })) := by
  have hmain := parseSource_github_url_eq O R B P kw hkw hO hOc hR hRc hB hBc hPs hPc
  constructor
  · intro hne
    rw [hmain, stripSkillMd_no_suffix hne]
  · intro Q hQ
    rw [hmain, hQ, stripSkillMd_append]

/-- Witness for C5: a concrete `/tree/` URL with a two-segment path, and a
concrete `/blob/` URL ending in `/SKILL.md` whose returned path is stripped. -/
theorem claim_C5_witness :
    parseSource ("https://github.com/" ++ "O-wn" ++ "/" ++ "Rp" ++ "/" ++ "tree" ++ "/"
        ++ "B1" ++ "/" ++ "p1/p2")
      = .ok (.github { owner := "O-wn", repo := "Rp", branch := some "B1",
                       path := some "p1/p2" })
    ∧ parseSource ("https://github.com/" ++ "O-wn" ++ "/" ++ "Rp" ++ "/" ++ "blob" ++ "/"
        ++ "B1" ++ "/" ++ "p1/SKILL.md")
      = .ok (.github { owner := "O-wn", repo := "Rp", branch := some "B1",
                       path := some "p1" }) :=
  ⟨(claim_C5_github_tree_blob_url "O-wn" "Rp" "B1" "p1/p2" "tree" (Or.inl rfl)
      (by decide) (by decide) (by decide) (by decide) (by decide) (by decide)
      (by decide) (by decide)).1 (by decide),
   (claim_C5_github_tree_blob_url "O-wn" "Rp" "B1" "p1/SKILL.md" "blob" (Or.inr rfl)
      (by decide) (by decide) (by decide) (by decide) (by decide) (by decide)
      (by decide) (by decide)).2 "p1" rfl⟩

lemma replaceFirst_cons_neg {pat : List Char} {c : Char} {t rep : List Char}
    (h : pat.isPrefixOf (c :: t) = false) :
    replaceFirst (c :: t) pat rep = c :: replaceFirst t pat rep := by
  simp [replaceFirst, h]

lemma replaceFirst_of_match {pat s rep : List Char} (h : pat.isPrefixOf s = true) :
    replaceFirst s pat rep = rep ++ s.drop pat.length := by
  cases s with
  | nil =>
    have hp : pat = [] := by
      cases pat with
      | nil => rfl
      | cons a as => exact absurd h (by simp [List.isPrefixOf])
    subst hp
    simp [replaceFirst]
  | cons c t => simp [replaceFirst, h]

lemma replaceFirst_slashfree_append (u x pt rep : List Char) (hu : ∀ c ∈ u, c ≠ '/') :
    replaceFirst (u ++ x) ('/' :: pt) rep = u ++ replaceFirst x ('/' :: pt) rep := by
  induction u with
  | nil => rfl
  | cons c u' ih =>
    have hc : c ≠ '/' := hu c (List.mem_cons_self c u')
    have hpre : (('/' :: pt).isPrefixOf (c :: (u' ++ x))) = false :=
      isPrefixOf_cons_false (fun h => hc h.symm)
    rw [List.cons_append, replaceFirst_cons_neg hpre,
      ih (fun d hd => hu d (List.mem_cons_of_mem c hd))]
    rfl

lemma main_segment_blocks_match (u z : List Char) (hu : ∀ c ∈ u, c ≠ '/')
    (hne : u ≠ "main".data) :
    ("main/".data).isPrefixOf (u ++ '/' :: z) = false := by
  match u with
  | [] => rfl
  | [a] => simp [List.isPrefixOf]
  | [a, b] => simp [List.isPrefixOf]
  | [a, b, c] => simp [List.isPrefixOf]
  | [a, b, c, d] =>
    by_cases h1 : 'm' = a
    · by_cases h2 : 'a' = b
      · by_cases h3 : 'i' = c
        · by_cases h4 : 'n' = d
          · subst h1; subst h2; subst h3; subst h4
            exact absurd rfl hne
          · simp [List.isPrefixOf, h4]
        · simp [List.isPrefixOf, h3]
      · simp [List.isPrefixOf, h2]
    · simp [List.isPrefixOf, h1]
  | a :: b :: c :: d :: e :: u' =>
    have hue : ¬ ('/' = e) := fun h => hu e (by simp) h.symm
    simp [List.isPrefixOf, hue]

lemma https_raw_split (y : List Char) :
    "https://raw.githubusercontent.com/".data ++ y
      = "https:".data ++ ('/' :: '/' :: ("raw.githubusercontent.com".data ++ '/' :: y)) := by
  rw [show "https://raw.githubusercontent.com/".data
      = "https:".data ++ ('/' :: '/' :: ("raw.githubusercontent.com".data ++ ['/']))
      from by decide]
  simp

lemma replaceFirst_https_skip (x rep : List Char)
    (hx : ("main/".data).isPrefixOf x = false) :
    replaceFirst ("https://raw.githubusercontent.com/".data ++ x) ("/main/".data) rep
      = "https://raw.githubusercontent.com/".data ++ replaceFirst x ("/main/".data) rep := by
  rw [show ("/main/".data : List Char) = '/' :: "main/".data from rfl]
  rw [https_raw_split x]
  rw [replaceFirst_slashfree_append _ _ _ _ (by decide)]
  rw [replaceFirst_cons_neg (show (('/' :: "main/".data).isPrefixOf
      ('/' :: '/' :: ("raw.githubusercontent.com".data ++ '/' :: x))) = false from rfl)]
  rw [replaceFirst_cons_neg (show (('/' :: "main/".data).isPrefixOf
      ('/' :: ("raw.githubusercontent.com".data ++ '/' :: x))) = false from rfl)]
  rw [replaceFirst_slashfree_append _ _ _ _ (by decide)]
  rw [replaceFirst_cons_neg (show (('/' :: "main/".data).isPrefixOf ('/' :: x)) = false
      from hx)]
  rw [https_raw_split (replaceFirst x ('/' :: "main/".data) rep)]

lemma replaceFirst_https_match (w rep : List Char)
    (hw : ("main/".data).isPrefixOf w = true) :
    replaceFirst ("https://raw.githubusercontent.com/".data ++ w) ("/main/".data) rep
      = "https://raw.githubusercontent.com".data ++ (rep ++ w.drop 5) := by
  rw [show ("/main/".data : List Char) = '/' :: "main/".data from rfl]
  rw [https_raw_split w]
  rw [replaceFirst_slashfree_append _ _ _ _ (by decide)]
  rw [replaceFirst_cons_neg (show (('/' :: "main/".data).isPrefixOf
      ('/' :: '/' :: ("raw.githubusercontent.com".data ++ '/' :: w))) = false from rfl)]
  rw [replaceFirst_cons_neg (show (('/' :: "main/".data).isPrefixOf
      ('/' :: ("raw.githubusercontent.com".data ++ '/' :: w))) = false from rfl)]
  rw [replaceFirst_slashfree_append _ _ _ _ (by decide)]
  rw [replaceFirst_of_match (show (('/' :: "main/".data).isPrefixOf ('/' :: w)) = true
      from hw)]
  rw [show ('/' :: w).drop (('/' :: "main/".data).length) = w.drop 5 from rfl]
  rw [show ("https://raw.githubusercontent.com".data : List Char)
      = "https:".data ++ ('/' :: '/' :: "raw.githubusercontent.com".data) from by decide]
  simp

/-- C10: the fallback URL is the primary URL with the first occurrence of
`/main/` replaced by `/master/`; it equals the primary URL with only the
branch segment changed exactly when neither the owner nor the repository is
itself named `main`. -/
theorem claim_C10_fallback_url (o r : String) (p : Option String)
    (ho : ∀ c ∈ o.data, c ≠ '/') (hr : ∀ c ∈ r.data, c ≠ '/') :
    masterFallbackUrl ⟨o, r, none, p⟩ = masterBranchUrl ⟨o, r, none, p⟩
      ↔ (o ≠ "main" ∧ r ≠ "main") := by
  have hraw : (githubRawUrl ⟨o, r, none, p⟩).data
      = "https://raw.githubusercontent.com/".data
        ++ (o.data ++ '/' :: (r.data ++ '/' :: ("main".data ++ '/'
            :: (githubFilePath ⟨o, r, none, p⟩).data))) := by
    unfold githubRawUrl
    rw [show effectiveBranch ⟨o, r, none, p⟩ = "main" from rfl]
    simp [String.data_append]
  have hmb : (masterBranchUrl ⟨o, r, none, p⟩).data
      = "https://raw.githubusercontent.com/".data
        ++ (o.data ++ '/' :: (r.data ++ '/' :: ("master".data ++ '/'
            :: (githubFilePath ⟨o, r, none, p⟩).data))) := by
    unfold masterBranchUrl
    simp [String.data_append]
  constructor
  · intro heq
    by_contra hcon
    rw [not_and_or, not_ne_iff, not_ne_iff] at hcon
    have hdata := congrArg String.data heq
    by_cases hom : o = "main"
    · subst hom
      rw [show (masterFallbackUrl ⟨"main", r, none, p⟩).data
          = replaceFirst (githubRawUrl ⟨"main", r, none, p⟩).data "/main/".data
              "/master/".data from rfl] at hdata
      rw [hraw] at hdata
      rw [replaceFirst_https_match ("main".data ++ '/' :: (r.data ++ '/' :: ("main".data
          ++ '/' :: (githubFilePath ⟨"main", r, none, p⟩).data))) "/master/".data
        (by simp [List.isPrefixOf])] at hdata
      rw [hmb] at hdata
      rw [show "https://raw.githubusercontent.com/".data
          = "https://raw.githubusercontent.com".data ++ ['/'] from by decide,
        List.append_assoc] at hdata
      have hdata2 := List.append_cancel_left hdata
      have hbad : (['/', 'm', 'a', 's'] : List Char) = ['/', 'm', 'a', 'i'] :=
        congrArg (fun l : List Char => l.take 4) hdata2
      exact absurd hbad (by decide)
    · have hrm : r = "main" := by
        rcases hcon with h | h
        · exact absurd h hom
        · exact h
      subst hrm
      have hod : o.data ≠ "main".data := fun h => hom (String.ext h)
      rw [show (masterFallbackUrl ⟨o, "main", none, p⟩).data
          = replaceFirst (githubRawUrl ⟨o, "main", none, p⟩).data "/main/".data
              "/master/".data from rfl] at hdata
      rw [hraw] at hdata
      rw [replaceFirst_https_skip _ _
        (main_segment_blocks_match o.data
          ("main".data ++ '/' :: ("main".data ++ '/'
            :: (githubFilePath ⟨o, "main", none, p⟩).data)) ho hod)] at hdata
      rw [show ("/main/".data : List Char) = '/' :: "main/".data from rfl] at hdata
      rw [replaceFirst_slashfree_append o.data _ _ _ ho] at hdata
      rw [replaceFirst_of_match (show (('/' :: "main/".data).isPrefixOf
          ('/' :: ("main".data ++ '/' :: ("main".data ++ '/'
            :: (githubFilePath ⟨o, "main", none, p⟩).data)))) = true from rfl)] at hdata
      rw [hmb] at hdata
      have hdata2 := List.append_cancel_left hdata
      have hdata3 := List.append_cancel_left hdata2
      have hbad : (['/', 'm', 'a', 's'] : List Char) = ['/', 'm', 'a', 'i'] :=
        congrArg (fun l : List Char => l.take 4) hdata3
      exact absurd hbad (by decide)
  · rintro ⟨hom, hrm⟩
    have hod : o.data ≠ "main".data := fun h => hom (String.ext h)
    have hrd : r.data ≠ "main".data := fun h => hrm (String.ext h)
    apply String.ext
    rw [show (masterFallbackUrl ⟨o, r, none, p⟩).data
        = replaceFirst (githubRawUrl ⟨o, r, none, p⟩).data "/main/".data
            "/master/".data from rfl]
    rw [hraw]
    rw [replaceFirst_https_skip _ _
      (main_segment_blocks_match o.data
        (r.data ++ '/' :: ("main".data ++ '/'
          :: (githubFilePath ⟨o, r, none, p⟩).data)) ho hod)]
    rw [show ("/main/".data : List Char) = '/' :: "main/".data from rfl]
    rw [replaceFirst_slashfree_append o.data _ _ _ ho]
    rw [replaceFirst_cons_neg (show (('/' :: "main/".data).isPrefixOf
        ('/' :: (r.data ++ '/' :: ("main".data ++ '/'
          :: (githubFilePath ⟨o, r, none, p⟩).data)))) = false
      from main_segment_blocks_match r.data
        ("main".data ++ '/' :: (githubFilePath ⟨o, r, none, p⟩).data) hr hrd)]
    rw [replaceFirst_slashfree_append r.data _ _ _ hr]
    rw [replaceFirst_of_match (show (('/' :: "main/".data).isPrefixOf
        ('/' :: ("main".data ++ '/' :: (githubFilePath ⟨o, r, none, p⟩).data))) = true
      from by simp [List.isPrefixOf])]
    rw [hmb]
    rfl

/-- Witness for C10: for `acme/kit` the fallback URL is exactly the
branch-changed URL; for owner `main` it is not. -/
theorem claim_C10_witness :
    masterFallbackUrl ⟨"acme", "kit", none, none⟩ = masterBranchUrl ⟨"acme", "kit", none, none⟩
    ∧ masterFallbackUrl ⟨"main", "kit", none, none⟩ ≠ masterBranchUrl ⟨"main", "kit", none, none⟩ :=
  ⟨(claim_C10_fallback_url "acme" "kit" none (by decide) (by decide)).mpr
      ⟨by decide, by decide⟩,
   fun h => absurd ((claim_C10_fallback_url "main" "kit" none (by decide) (by decide)).mp h).1
     (by simp)⟩
